import Mathlib

/-!
Shallow embedding of `src/gpred/gpred.py` (gene prediction over a nucleotide
sequence) and proofs of the frozen claims about it.

Sequences are `List Char`, positions 0-indexed `Nat`, reported gene
coordinates 1-indexed and carried as `Int` pairs (Python integers).
The regular expressions of the source are embedded as explicit scanners:
every alternative of each pattern has fixed shape, so a regex search is the
left-to-right scan for the first index where one alternative occurs.
A run of `predict_genes` that raises (the `TypeError` hit when `find_start`
returns `None` and the while condition is re-evaluated, or the `KeyError` of
`reverse_complement` on a base outside ACGT) is modelled as `none`.
-/

namespace GPred

/-- Character of the sequence at index `i`; the default is irrelevant, every
matcher carries an explicit bound check. -/
def cAt (seq : List Char) (i : Nat) : Char := seq.getD i 'N'

/-- start_regex = "AT[TG]|[ATCG]TG" (gpred.py line 275): the alternative start
codons ATT, ATG, TTG, CTG, GTG. -/
def isStartCodon (c1 c2 c3 : Char) : Bool :=
  (c1 == 'A' && c2 == 'T' && (c3 == 'T' || c3 == 'G')) ||
  ((c1 == 'A' || c1 == 'T' || c1 == 'C' || c1 == 'G') && c2 == 'T' && c3 == 'G')

/-- A start-codon match lying at index `i` of the sequence. -/
def startCodonAt (seq : List Char) (i : Nat) : Bool :=
  decide (i + 3 ≤ seq.length) && isStartCodon (cAt seq i) (cAt seq (i + 1)) (cAt seq (i + 2))

/-- stop_regex = "TA[GA]|TGA" (gpred.py line 276): the stop codons TAG, TAA, TGA. -/
def isStopCodon (c1 c2 c3 : Char) : Bool :=
  (c1 == 'T' && c2 == 'A' && (c3 == 'G' || c3 == 'A')) ||
  (c1 == 'T' && c2 == 'G' && c3 == 'A')

/-- A stop-codon match lying at index `i` of the sequence. -/
def stopCodonAt (seq : List Char) (i : Nat) : Bool :=
  decide (i + 3 ≤ seq.length) && isStopCodon (cAt seq i) (cAt seq (i + 1)) (cAt seq (i + 2))

/-- Left-to-right regex scan: the first index at or after `i` where `p` holds,
examining `fuel` consecutive indices (callers pass the count of indices left in
the string, matching re.search clamping its bounds to the string). -/
def searchFrom (p : Nat → Bool) : Nat → Nat → Option Nat
  | _, 0 => none
  | i, fuel + 1 => if p i then some i else searchFrom p (i + 1) fuel

/-- find_start (gpred.py lines 103-117): start_regex.search(sequence, start, stop),
returning the position of the first start-codon match contained in [start, stop). -/
def find_start (seq : List Char) (start stop : Nat) : Option Nat :=
  searchFrom (fun i => startCodonAt seq i && decide (i + 3 ≤ stop)) start (seq.length - start)

/-- Loop of find_stop over stop_regex.finditer(sequence, start): finditer yields
non-overlapping matches left to right, each consumed match advancing the scan by
the codon length 3; the first match whose position is congruent to `frame`
modulo 3 is returned. fuel bounds the match count; `seq.length + 1` matches
never exhaust it, the scan position growing by at least 3 per step. -/
def findStopGo (seq : List Char) (frame : Nat) : Nat → Nat → Option Nat
  | _, 0 => none
  | pos, fuel + 1 =>
    match searchFrom (fun i => stopCodonAt seq i) pos (seq.length - pos) with
    | none => none
    | some p => if p % 3 == frame then some p else findStopGo seq frame (p + 3) fuel

/-- find_stop (gpred.py lines 120-134): the first stop-codon occurrence at or
after `start` in the same reading frame as `start`. -/
def find_stop (seq : List Char) (start : Nat) : Option Nat :=
  findStopGo seq (start % 3) start (seq.length + 1)

/-- Literal occurrence of the word `w` at index `i` of `seq`. -/
def litAt (seq : List Char) (i : Nat) (w : List Char) : Bool :=
  (seq.drop i).take w.length == w

/-- shine_regex = "A?G?GAGG|GGAG|GG.{1}GG" (gpred.py line 279): a match of length
`l` at index `i`; the dot of the third alternative matches any character other
than a newline. -/
def shineMatchAt (seq : List Char) (i l : Nat) : Bool :=
  match l with
  | 4 => litAt seq i ['G', 'A', 'G', 'G'] || litAt seq i ['G', 'G', 'A', 'G']
  | 5 => litAt seq i ['G', 'G', 'A', 'G', 'G'] || litAt seq i ['A', 'G', 'A', 'G', 'G'] ||
      (litAt seq i ['G', 'G'] && litAt seq (i + 3) ['G', 'G'] &&
        decide (i + 5 ≤ seq.length) && (cAt seq (i + 2) != Char.ofNat 10))
  | 6 => litAt seq i ['A', 'G', 'G', 'A', 'G', 'G']
  | _ => false

/-- Truthiness of shine_regex.search(sequence, pos, endp): some alternative
matches at an index at or after `pos` and ends by `endp`. -/
def shineFound (seq : List Char) (pos endp : Nat) : Bool :=
  (List.range seq.length).any (fun i =>
    decide (pos ≤ i) && ([4, 5, 6].any (fun l => decide (i + l ≤ endp) && shineMatchAt seq i l)))

/-- has_shine_dalgarno (gpred.py lines 137-153). The window end `start - 6` is a
Python int that re.search clamps to 0 from below, which Nat subtraction renders
exactly. -/
def hasShineDalgarno (seq : List Char) (start maxSD : Nat) : Bool :=
  if (start : Int) - (maxSD : Int) < 0 then false
  else shineFound seq (start - maxSD) (start - 6)

/-- Outcome of one iteration of the predict_genes while body (gpred.py lines
180-195). `crash` records that find_start returned None: the source rebinds
current_pos to that None and the next evaluation of the while condition raises a
TypeError. Each other outcome carries the next value of current_pos. -/
inductive StepResult where
  | crash : StepResult
  | noStopReject : Nat → StepResult
  | lenReject : Nat → StepResult
  | shineReject : Nat → StepResult
  | accept : Int × Int → Nat → StepResult
deriving DecidableEq

/-- One iteration of the predict_genes loop body (gpred.py lines 180-195). -/
def predictStep (seq : List Char) (minLen maxSD minGap : Nat) (cur : Nat) : StepResult :=
  match find_start seq cur seq.length with
  | none => StepResult.crash
  | some s =>
    match find_stop seq s with
    | none => StepResult.noStopReject (s + 1)
    | some p =>
      if (minLen : Int) ≤ (p : Int) - (s : Int) then
        if hasShineDalgarno seq s maxSD then
          StepResult.accept ((s : Int) + 1, (p : Int) + 3) (p + 3 + minGap)
        else StepResult.shineReject (s + 1)
      else StepResult.lenReject (s + 1)

/-- The while loop of predict_genes (gpred.py lines 179-195). The while
condition is evaluated before fuel is consumed, so a fuel of zero matters only
when one more iteration would run; current_pos strictly increases per iteration
while the condition bounds it by the sequence length, so the initial fuel
`seq.length + 1` of predict_genes never exhausts (predictLoopF_fuel_eq). -/
def predictLoopF (seq : List Char) (minLen maxSD minGap : Nat) :
    Nat → Nat → List (Int × Int) → Option (List (Int × Int))
  | fuel, cur, acc =>
    if (minGap : Int) ≤ (seq.length : Int) - (cur : Int) then
      match fuel with
      | 0 => none
      | fuel + 1 =>
        match predictStep seq minLen maxSD minGap cur with
        | StepResult.crash => none
        | StepResult.noStopReject c => predictLoopF seq minLen maxSD minGap fuel c acc
        | StepResult.lenReject c => predictLoopF seq minLen maxSD minGap fuel c acc
        | StepResult.shineReject c => predictLoopF seq minLen maxSD minGap fuel c acc
        | StepResult.accept g c => predictLoopF seq minLen maxSD minGap fuel c (acc ++ [g])
    else some acc

/-- predict_genes (gpred.py lines 156-196); `none` models the run raising. -/
def predict_genes (seq : List Char) (minLen maxSD minGap : Nat) : Option (List (Int × Int)) :=
  predictLoopF seq minLen maxSD minGap (seq.length + 1) 0 []

/-- The complement dictionary of reverse_complement (gpred.py line 260); `none`
models the KeyError raised on any other character. -/
def complementBase (c : Char) : Option Char :=
  if c == 'A' then some 'T'
  else if c == 'C' then some 'G'
  else if c == 'G' then some 'C'
  else if c == 'T' then some 'A'
  else none

/-- reverse_complement (gpred.py lines 254-261): complement of each base of the
reversed sequence, `none` when some base has no complement. -/
def reverse_complement (seq : List Char) : Option (List Char) :=
  seq.reverse.mapM complementBase

/-- Remap of one reverse-complement gene into forward coordinates (gpred.py
lines 311-313): position3, position5 = g; [L - position5 + 1, L - position3 + 1]. -/
def remapGene (L : Nat) (g : Int × Int) : Int × Int :=
  ((L : Int) - g.2 + 1, (L : Int) - g.1 + 1)

/-- Gene list assembled by main (gpred.py lines 287-314): the forward-strand
genes followed by the reverse-complement genes remapped with the length of the
reverse-complement sequence; `none` models the run raising in either scan or in
reverse_complement. -/
def mainGenes (seq : List Char) (minLen maxSD minGap : Nat) : Option (List (Int × Int)) :=
  match predict_genes seq minLen maxSD minGap with
  | none => none
  | some fwd =>
    match reverse_complement seq with
    | none => none
    | some rc =>
      match predict_genes rc minLen maxSD minGap with
      | none => none
      | some rev => some (fwd ++ rev.map (remapGene rc.length))

/-- Cursor produced by a loop iteration, when the iteration produced one. -/
def stepNext : StepResult → Option Nat
  | StepResult.crash => none
  | StepResult.noStopReject c => some c
  | StepResult.lenReject c => some c
  | StepResult.shineReject c => some c
  | StepResult.accept _ c => some c

/-- Membership of the four-letter nucleotide alphabet. -/
def isACGT (c : Char) : Bool :=
  c == 'A' || c == 'C' || c == 'G' || c == 'T'

/-- Watson-Crick complement as the spec states it (A and T swapped, C and G
swapped), total on valid bases. -/
def watsonCrick (c : Char) : Char :=
  if c == 'A' then 'T'
  else if c == 'C' then 'G'
  else if c == 'G' then 'C'
  else if c == 'T' then 'A'
  else c

/-! ### Facts about the scanners -/

theorem searchFrom_some {p : Nat → Bool} :
    ∀ {i fuel j : Nat}, searchFrom p i fuel = some j →
      i ≤ j ∧ j < i + fuel ∧ p j = true ∧ ∀ k, i ≤ k → k < j → p k = false := by
  intro i fuel
  induction fuel generalizing i with
  | zero => intro j h; simp [searchFrom] at h
  | succ n ih =>
    intro j h
    simp only [searchFrom] at h
    by_cases hp : p i = true
    · rw [if_pos hp] at h
      obtain rfl : i = j := by simpa using h
      exact ⟨Nat.le_refl _, by omega, hp, fun k hk1 hk2 => absurd hk1 (by omega)⟩
    · rw [if_neg hp] at h
      obtain ⟨h1, h2, h3, h4⟩ := ih h
      refine ⟨by omega, by omega, h3, fun k hk1 hk2 => ?_⟩
      rcases Nat.eq_or_lt_of_le hk1 with rfl | hlt
      · exact Bool.eq_false_iff.mpr hp
      · exact h4 k hlt hk2

theorem searchFrom_none {p : Nat → Bool} :
    ∀ {i fuel : Nat}, searchFrom p i fuel = none →
      ∀ k, i ≤ k → k < i + fuel → p k = false := by
  intro i fuel
  induction fuel generalizing i with
  | zero => intro _ k hk1 hk2; omega
  | succ n ih =>
    intro h k hk1 hk2
    simp only [searchFrom] at h
    by_cases hp : p i = true
    · rw [if_pos hp] at h; exact absurd h (by simp)
    · rw [if_neg hp] at h
      rcases Nat.eq_or_lt_of_le hk1 with rfl | hlt
      · exact Bool.eq_false_iff.mpr hp
      · exact ih h k hlt (by omega)

theorem startCodonAt_bound {seq : List Char} {i : Nat} (h : startCodonAt seq i = true) :
    i + 3 ≤ seq.length := by
  simp only [startCodonAt, Bool.and_eq_true, decide_eq_true_eq] at h
  exact h.1

theorem stopCodonAt_bound {seq : List Char} {i : Nat} (h : stopCodonAt seq i = true) :
    i + 3 ≤ seq.length := by
  simp only [stopCodonAt, Bool.and_eq_true, decide_eq_true_eq] at h
  exact h.1

theorem find_start_some {seq : List Char} {start stop s : Nat}
    (h : find_start seq start stop = some s) :
    start ≤ s ∧ startCodonAt seq s = true ∧ s + 3 ≤ stop := by
  unfold find_start at h
  obtain ⟨h1, _, h3, _⟩ := searchFrom_some h
  simp only [Bool.and_eq_true, decide_eq_true_eq] at h3
  exact ⟨h1, h3.1, h3.2⟩

/-- Two stop-codon occurrences never overlap: every stop codon starts with T and
none has a T in its second or third position, so the step of 3 that finditer
takes after a match skips no occurrence. -/
theorem stop_codons_disjoint {seq : List Char} {a b : Nat}
    (ha : stopCodonAt seq a = true) (hb : stopCodonAt seq b = true)
    (h1 : a < b) (h2 : b < a + 3) : False := by
  simp only [stopCodonAt, isStopCodon, Bool.and_eq_true, Bool.or_eq_true,
    decide_eq_true_eq, beq_iff_eq] at ha hb
  rcases (by omega : b = a + 1 ∨ b = a + 2) with rfl | rfl
  · rcases ha.2 with ⟨⟨-, h⟩, -⟩ | ⟨⟨-, h⟩, -⟩ <;>
      rcases hb.2 with ⟨⟨h', -⟩, -⟩ | ⟨⟨h', -⟩, -⟩ <;>
      (rw [h] at h'; exact absurd h' (by decide))
  · rcases ha.2 with ⟨⟨-, -⟩, h | h⟩ | ⟨⟨-, -⟩, h⟩ <;>
      rcases hb.2 with ⟨⟨h', -⟩, -⟩ | ⟨⟨h', -⟩, -⟩ <;>
      (rw [h] at h'; exact absurd h' (by decide))

theorem findStopGo_props (seq : List Char) (frame : Nat) :
    ∀ fuel pos, seq.length ≤ pos + 3 * fuel →
      (∀ p, findStopGo seq frame pos fuel = some p →
        pos ≤ p ∧ stopCodonAt seq p = true ∧ p % 3 = frame ∧
          ∀ q, pos ≤ q → q < p → stopCodonAt seq q = true → q % 3 ≠ frame) ∧
      (findStopGo seq frame pos fuel = none →
        ∀ q, pos ≤ q → stopCodonAt seq q = true → q % 3 ≠ frame) := by
  intro fuel
  induction fuel with
  | zero =>
    intro pos hb
    refine ⟨fun p hp => by simp [findStopGo] at hp, fun _ q hq hstop _ => ?_⟩
    have := stopCodonAt_bound hstop
    omega
  | succ n ih =>
    intro pos hb
    have heq : findStopGo seq frame pos (n + 1) =
        match searchFrom (fun i => stopCodonAt seq i) pos (seq.length - pos) with
        | none => none
        | some p => if p % 3 == frame then some p else findStopGo seq frame (p + 3) n := rfl
    cases hm : searchFrom (fun i => stopCodonAt seq i) pos (seq.length - pos) with
    | none =>
      simp only [hm] at heq
      have hall : ∀ q, pos ≤ q → stopCodonAt seq q = true → False := by
        intro q hq hstop
        have hlen := stopCodonAt_bound hstop
        have := searchFrom_none hm q hq (by omega)
        simp [this] at hstop
      refine ⟨fun p hp => absurd (heq ▸ hp) (by simp), fun _ q hq hstop _ => hall q hq hstop⟩
    | some p =>
      simp only [hm] at heq
      obtain ⟨hp1, hp2, hp3, hp4⟩ := searchFrom_some hm
      by_cases hfr : p % 3 = frame
      · rw [if_pos (by simpa using hfr)] at heq
        refine ⟨fun r hr => ?_, fun hnone => absurd (heq ▸ hnone) (by simp)⟩
        obtain rfl : p = r := by rw [heq] at hr; exact Option.some.inj hr
        exact ⟨hp1, hp3, hfr, fun q hq1 hq2 hq3 => by simp [hp4 q hq1 hq2] at hq3⟩
      · rw [if_neg (by simpa using hfr)] at heq
        have hbnd : seq.length ≤ p + 3 + 3 * n := by omega
        obtain ⟨ihs, ihn⟩ := ih (p + 3) hbnd
        have cover : ∀ q, pos ≤ q → q < p + 3 → stopCodonAt seq q = true → q % 3 ≠ frame := by
          intro q hq1 hq2 hq3
          rcases (by omega : q < p ∨ q = p ∨ (p < q ∧ q < p + 3)) with h | rfl | ⟨hlt, hlt3⟩
          · simp [hp4 q hq1 h] at hq3
          · exact hfr
          · exact absurd (stop_codons_disjoint hp3 hq3 hlt hlt3) (by simp)
        constructor
        · intro r hr
          rw [heq] at hr
          obtain ⟨hr1, hr2, hr3, hr4⟩ := ihs r hr
          refine ⟨by omega, hr2, hr3, fun q hq1 hq2 hq3 => ?_⟩
          rcases (by omega : q < p + 3 ∨ p + 3 ≤ q) with h | h
          · exact cover q hq1 h hq3
          · exact hr4 q h hq2 hq3
        · intro hnone q hq1 hq2
          rw [heq] at hnone
          rcases (by omega : q < p + 3 ∨ p + 3 ≤ q) with h | h
          · exact cover q hq1 h hq2
          · exact ihn hnone q h hq2

theorem find_stop_some {seq : List Char} {start p : Nat}
    (h : find_stop seq start = some p) :
    start ≤ p ∧ stopCodonAt seq p = true ∧ p % 3 = start % 3 ∧
      ∀ q, start ≤ q → q < p → stopCodonAt seq q = true → q % 3 ≠ start % 3 := by
  unfold find_stop at h
  exact (findStopGo_props seq (start % 3) (seq.length + 1) start (by omega)).1 p h

theorem find_stop_none {seq : List Char} {start : Nat}
    (h : find_stop seq start = none) :
    ∀ q, start ≤ q → stopCodonAt seq q = true → q % 3 ≠ start % 3 := by
  unfold find_stop at h
  exact (findStopGo_props seq (start % 3) (seq.length + 1) start (by omega)).2 h

/-- C6: find_stop(sequence, start) returns the leftmost position p at or after
start carrying a stop codon in the same reading frame as start (p % 3 = start % 3),
and returns none exactly when no frame-matching stop occurrence exists; the
non-overlapping enumeration of finditer skips no frame-matching occurrence. -/
theorem C6_find_stop_leftmost_inframe (seq : List Char) (start : Nat) :
    (∀ p, find_stop seq start = some p →
      start ≤ p ∧ stopCodonAt seq p = true ∧ p % 3 = start % 3 ∧
        ∀ q, start ≤ q → q < p → stopCodonAt seq q = true → q % 3 ≠ start % 3) ∧
    (find_stop seq start = none →
      ∀ q, start ≤ q → stopCodonAt seq q = true → q % 3 ≠ start % 3) :=
  ⟨fun _ h => find_stop_some h, fun h => find_stop_none h⟩

/-! ### Facts about the prediction loop -/

theorem predictLoopF_eq (seq : List Char) (minLen maxSD minGap fuel cur : Nat)
    (acc : List (Int × Int)) :
    predictLoopF seq minLen maxSD minGap fuel cur acc =
      if (minGap : Int) ≤ (seq.length : Int) - (cur : Int) then
        match fuel with
        | 0 => none
        | fuel + 1 =>
          match predictStep seq minLen maxSD minGap cur with
          | StepResult.crash => none
          | StepResult.noStopReject c => predictLoopF seq minLen maxSD minGap fuel c acc
          | StepResult.lenReject c => predictLoopF seq minLen maxSD minGap fuel c acc
          | StepResult.shineReject c => predictLoopF seq minLen maxSD minGap fuel c acc
          | StepResult.accept g c => predictLoopF seq minLen maxSD minGap fuel c (acc ++ [g])
      else some acc := by
  conv_lhs => rw [predictLoopF.eq_def]

theorem predictStep_accept_spec {seq : List Char} {minLen maxSD minGap cur : Nat}
    {g : Int × Int} {c : Nat}
    (h : predictStep seq minLen maxSD minGap cur = StepResult.accept g c) :
    ∃ s p : Nat, find_start seq cur seq.length = some s ∧ find_stop seq s = some p ∧
      (minLen : Int) ≤ (p : Int) - (s : Int) ∧ hasShineDalgarno seq s maxSD = true ∧
      g = ((s : Int) + 1, (p : Int) + 3) ∧ c = p + 3 + minGap := by
  unfold predictStep at h
  split at h
  · exact absurd h (by simp)
  next s hs =>
    split at h
    · exact absurd h (by simp)
    next p hp =>
      split at h
      next hlen =>
        split at h
        next hshine =>
          simp only [StepResult.accept.injEq] at h
          exact ⟨s, p, hs, hp, hlen, hshine, h.1.symm, h.2.symm⟩
        · exact absurd h (by simp)
      · exact absurd h (by simp)

theorem predictStep_cursor_lt {seq : List Char} {minLen maxSD minGap cur c : Nat}
    (h : stepNext (predictStep seq minLen maxSD minGap cur) = some c) : cur < c := by
  unfold predictStep at h
  split at h
  · exact absurd h (by simp [stepNext])
  next s hs =>
    have hcs : cur ≤ s := (find_start_some hs).1
    split at h
    · simp only [stepNext, Option.some.injEq] at h
      omega
    next p hp =>
      have hsp : s ≤ p := (find_stop_some hp).1
      split at h
      · split at h <;> simp only [stepNext, Option.some.injEq] at h <;> omega
      · simp only [stepNext, Option.some.injEq] at h
        omega

/-- Fuel is irrelevant once it covers the remaining cursor range: the loop body
strictly increases the cursor, so predict_genes, which starts the loop with fuel
seq.length + 1 at cursor 0, never reaches the fuel-exhaustion branch. -/
theorem predictLoopF_fuel_eq (seq : List Char) (minLen maxSD minGap : Nat) :
    ∀ f1 f2 cur acc, seq.length + 1 ≤ cur + f1 → seq.length + 1 ≤ cur + f2 →
      predictLoopF seq minLen maxSD minGap f1 cur acc =
        predictLoopF seq minLen maxSD minGap f2 cur acc := by
  intro f1
  induction f1 with
  | zero =>
    intro f2 cur acc hb1 hb2
    have hcond : ¬ ((minGap : Int) ≤ (seq.length : Int) - (cur : Int)) := by
      have : seq.length + 1 ≤ cur := by omega
      omega
    rw [predictLoopF_eq, predictLoopF_eq, if_neg hcond, if_neg hcond]
  | succ n ih =>
    intro f2 cur acc hb1 hb2
    rw [predictLoopF_eq, predictLoopF_eq]
    by_cases hcond : (minGap : Int) ≤ (seq.length : Int) - (cur : Int)
    · rw [if_pos hcond, if_pos hcond]
      have hcur : cur ≤ seq.length := by
        by_contra hc
        omega
      obtain ⟨m, rfl⟩ : ∃ m, f2 = m + 1 := ⟨f2 - 1, by omega⟩
      cases hstep : predictStep seq minLen maxSD minGap cur with
      | crash => rfl
      | noStopReject c =>
        have hc : cur < c := predictStep_cursor_lt (by rw [hstep]; rfl)
        exact ih m c acc (by omega) (by omega)
      | lenReject c =>
        have hc : cur < c := predictStep_cursor_lt (by rw [hstep]; rfl)
        exact ih m c acc (by omega) (by omega)
      | shineReject c =>
        have hc : cur < c := predictStep_cursor_lt (by rw [hstep]; rfl)
        exact ih m c acc (by omega) (by omega)
      | accept g c =>
        have hc : cur < c := predictStep_cursor_lt (by rw [hstep]; rfl)
        exact ih m c (acc ++ [g]) (by omega) (by omega)
    · rw [if_neg hcond, if_neg hcond]

/-- Shape of the gene list a predict_genes scan appends from cursor cur onward:
every gene records a found start codon and an in-frame stop codon that passed the
length and motif filters, and the cursor jumps past the accepted stop plus the
minimum gap before the next gene is sought. -/
inductive ScanChain (seq : List Char) (minLen maxSD minGap : Nat) : Nat → List (Int × Int) → Prop where
  | nil (cur : Nat) : ScanChain seq minLen maxSD minGap cur []
  | cons (cur s p : Nat) (tail : List (Int × Int)) :
      cur ≤ s → startCodonAt seq s = true →
      s ≤ p → stopCodonAt seq p = true → p % 3 = s % 3 →
      (minLen : Int) ≤ (p : Int) - (s : Int) → hasShineDalgarno seq s maxSD = true →
      ScanChain seq minLen maxSD minGap (p + 3 + minGap) tail →
      ScanChain seq minLen maxSD minGap cur (((s : Int) + 1, (p : Int) + 3) :: tail)

theorem ScanChain.weaken {seq : List Char} {minLen maxSD minGap cur cur' : Nat}
    {gs : List (Int × Int)} (h : ScanChain seq minLen maxSD minGap cur' gs)
    (hle : cur ≤ cur') : ScanChain seq minLen maxSD minGap cur gs := by
  cases h with
  | nil => exact ScanChain.nil cur
  | cons cur'' s p tail h1 h2 h3 h4 h5 h6 h7 h8 =>
    exact ScanChain.cons cur s p tail (by omega) h2 h3 h4 h5 h6 h7 h8

theorem predictLoopF_chain (seq : List Char) (minLen maxSD minGap : Nat) :
    ∀ fuel cur acc gs, predictLoopF seq minLen maxSD minGap fuel cur acc = some gs →
      ∃ tail, gs = acc ++ tail ∧ ScanChain seq minLen maxSD minGap cur tail := by
  intro fuel
  induction fuel with
  | zero =>
    intro cur acc gs h
    rw [predictLoopF_eq] at h
    split at h
    · exact absurd h (by simp)
    · exact ⟨[], by simpa using (Option.some.inj h).symm, ScanChain.nil cur⟩
  | succ n ih =>
    intro cur acc gs h
    rw [predictLoopF_eq] at h
    split at h
    · cases hstep : predictStep seq minLen maxSD minGap cur with
      | crash => rw [hstep] at h; exact absurd h (by simp)
      | noStopReject c =>
        rw [hstep] at h
        obtain ⟨tail, htail, hchain⟩ := ih c acc gs h
        have hc : cur < c := predictStep_cursor_lt (by rw [hstep]; rfl)
        exact ⟨tail, htail, hchain.weaken (by omega)⟩
      | lenReject c =>
        rw [hstep] at h
        obtain ⟨tail, htail, hchain⟩ := ih c acc gs h
        have hc : cur < c := predictStep_cursor_lt (by rw [hstep]; rfl)
        exact ⟨tail, htail, hchain.weaken (by omega)⟩
      | shineReject c =>
        rw [hstep] at h
        obtain ⟨tail, htail, hchain⟩ := ih c acc gs h
        have hc : cur < c := predictStep_cursor_lt (by rw [hstep]; rfl)
        exact ⟨tail, htail, hchain.weaken (by omega)⟩
      | accept g c =>
        rw [hstep] at h
        obtain ⟨tail, htail, hchain⟩ := ih c (acc ++ [g]) gs h
        obtain ⟨s, p, hs, hp, hlen, hshine, hg, hc⟩ := predictStep_accept_spec hstep
        obtain ⟨hcs, hstart, -⟩ := find_start_some hs
        obtain ⟨hsp, hstop, hframe, -⟩ := find_stop_some hp
        subst hg hc
        refine ⟨((s : Int) + 1, (p : Int) + 3) :: tail, by simpa using htail, ?_⟩
        exact ScanChain.cons cur s p tail hcs hstart hsp hstop hframe hlen hshine hchain
    · exact ⟨[], by simpa using (Option.some.inj h).symm, ScanChain.nil cur⟩

theorem predict_genes_chain {seq : List Char} {minLen maxSD minGap : Nat}
    {gs : List (Int × Int)} (h : predict_genes seq minLen maxSD minGap = some gs) :
    ScanChain seq minLen maxSD minGap 0 gs := by
  obtain ⟨tail, htail, hchain⟩ := predictLoopF_chain seq minLen maxSD minGap _ 0 [] gs h
  simpa [htail] using hchain

/-! ### Consequences of the scan invariant -/

theorem ScanChain.gene_spec {seq : List Char} {minLen maxSD minGap cur : Nat}
    {gs : List (Int × Int)} (h : ScanChain seq minLen maxSD minGap cur gs) :
    ∀ g ∈ gs, ∃ s p : Nat, g = ((s : Int) + 1, (p : Int) + 3) ∧ cur ≤ s ∧
      startCodonAt seq s = true ∧ stopCodonAt seq p = true ∧ p % 3 = s % 3 ∧
      (minLen : Int) ≤ (p : Int) - (s : Int) ∧ hasShineDalgarno seq s maxSD = true := by
  induction h with
  | nil => simp
  | cons cur s p tail h1 h2 h3 h4 h5 h6 h7 h8 ih =>
    intro g hg
    rcases List.mem_cons.mp hg with rfl | hg
    · exact ⟨s, p, rfl, h1, h2, h4, h5, h6, h7⟩
    · obtain ⟨t, q, hgeq, hct, r1, r2, r3, r4, r5⟩ := ih g hg
      exact ⟨t, q, hgeq, by omega, r1, r2, r3, r4, r5⟩

theorem ScanChain.start_lb {seq : List Char} {minLen maxSD minGap cur : Nat}
    {gs : List (Int × Int)} (h : ScanChain seq minLen maxSD minGap cur gs) :
    ∀ g ∈ gs, (cur : Int) + 1 ≤ g.1 := by
  induction h with
  | nil => simp
  | cons cur s p tail h1 h2 h3 h4 h5 h6 h7 h8 ih =>
    intro g hg
    rcases List.mem_cons.mp hg with rfl | hg
    · show (cur : Int) + 1 ≤ (s : Int) + 1
      omega
    · have := ih g hg
      omega

theorem ScanChain.chain_gap {seq : List Char} {minLen maxSD minGap cur : Nat}
    {gs : List (Int × Int)} (h : ScanChain seq minLen maxSD minGap cur gs) :
    List.Chain' (fun a b : Int × Int => a.2 + (minGap : Int) + 1 ≤ b.1) gs := by
  induction h with
  | nil => simp
  | cons cur s p tail h1 h2 h3 h4 h5 h6 h7 h8 ih =>
    rw [List.chain'_cons']
    refine ⟨fun b hb => ?_, ih⟩
    have hmem : b ∈ tail := List.mem_of_mem_head? hb
    have := h8.start_lb b hmem
    show ((s : Int) + 1, (p : Int) + 3).2 + (minGap : Int) + 1 ≤ b.1
    simp only
    omega

theorem ScanChain.pairwise_lt {seq : List Char} {minLen maxSD minGap cur : Nat}
    {gs : List (Int × Int)} (h : ScanChain seq minLen maxSD minGap cur gs) :
    List.Pairwise (fun a b : Int × Int => a.1 < b.1 ∧ a.2 < b.1) gs := by
  induction h with
  | nil => simp
  | cons cur s p tail h1 h2 h3 h4 h5 h6 h7 h8 ih =>
    refine List.Pairwise.cons (fun b hb => ?_) ih
    have := h8.start_lb b hb
    constructor
    · show (s : Int) + 1 < b.1
      omega
    · show (p : Int) + 3 < b.1
      omega

theorem hasShineDalgarno_true_ge {seq : List Char} {start maxSD : Nat}
    (h : hasShineDalgarno seq start maxSD = true) : maxSD ≤ start := by
  unfold hasShineDalgarno at h
  split at h
  · exact absurd h (by simp)
  next hguard => omega

/-- A true shineFound needs a window at least 4 wide: every alternative of
shine_regex spans at least 4 characters. -/
theorem shineFound_true {seq : List Char} {pos endp : Nat}
    (h : shineFound seq pos endp = true) : pos + 4 ≤ endp := by
  unfold shineFound at h
  simp only [List.any_eq_true, Bool.and_eq_true, decide_eq_true_eq] at h
  obtain ⟨i, -, hpos, l, hl, hle, -⟩ := h
  simp only [List.mem_cons, List.not_mem_nil, or_false] at hl
  rcases hl with rfl | rfl | rfl <;> omega

/-- Every alternative of shine_regex spans at least 4 characters, so a window
narrower than 4 holds no match. -/
theorem shine_window_too_small (seq : List Char) (start maxSD : Nat) (h9 : maxSD ≤ 9) :
    hasShineDalgarno seq start maxSD = false := by
  unfold hasShineDalgarno
  split
  · rfl
  next hguard =>
    cases hx : shineFound seq (start - maxSD) (start - 6) with
    | false => rfl
    | true =>
      have := shineFound_true hx
      exact absurd this (by omega)

theorem mainGenes_eq {seq : List Char} {minLen maxSD minGap : Nat} {gs : List (Int × Int)}
    (h : mainGenes seq minLen maxSD minGap = some gs) :
    ∃ fwd rc rev, predict_genes seq minLen maxSD minGap = some fwd ∧
      reverse_complement seq = some rc ∧ predict_genes rc minLen maxSD minGap = some rev ∧
      gs = fwd ++ rev.map (remapGene rc.length) := by
  unfold mainGenes at h
  split at h
  · exact absurd h (by simp)
  next fwd hf =>
    split at h
    · exact absurd h (by simp)
    next rc hrc =>
      split at h
      · exact absurd h (by simp)
      next rev hrev =>
        exact ⟨fwd, rc, rev, hf, hrc, hrev, (Option.some.inj h).symm⟩

/-! ### The claims -/

/-- C1: with sequence ATGAAAAAATAG, min_gene_len 3, min_gap 0 and
max_shine_dalgarno_distance 0, the scan reaches a state where the loop is still
active but no start codon occurs at or after current_pos; the code then rebinds
current_pos to None and the re-evaluated while condition raises a TypeError
(modelled none) instead of terminating normally with the empty gene list the
claim describes. -/
theorem C1_scan_raises_when_no_start :
    predict_genes (String.toList "ATGAAAAAATAG") 3 0 0 = none := by decide

/-- C2 counterexample: on ATGAAAAAATAG with min_gene_len 10 the candidate at
start 0 with in-frame stop 9 has ORF length stop + 3 − start = 12 ≥ 10, yet the
code rejects it on length grounds (its test is stop − start ≥ min_gene_len),
refuting the claimed boundary. -/
theorem C2_cex_orf12_rejected :
    predictStep (String.toList "ATGAAAAAATAG") 10 0 0 0 = StepResult.lenReject 1 ∧
    find_start (String.toList "ATGAAAAAATAG") 0 12 = some 0 ∧
    find_stop (String.toList "ATGAAAAAATAG") 0 = some 9 ∧
    ¬ ((9 : Int) + 3 - (0 : Int) < (10 : Int)) := by decide

/-- C2 amended: a candidate start s with in-frame stop p is rejected on length
grounds (cursor advanced to s + 1, candidate not recorded) exactly when
p − s < min_gene_len; every candidate with p − s ≥ min_gene_len proceeds to the
upstream-motif check. -/
theorem C2_length_reject_iff (seq : List Char) (minLen maxSD minGap cur s p : Nat)
    (hs : find_start seq cur seq.length = some s) (hp : find_stop seq s = some p) :
    predictStep seq minLen maxSD minGap cur = StepResult.lenReject (s + 1) ↔
      (p : Int) - (s : Int) < (minLen : Int) := by
  unfold predictStep
  simp only [hs, hp]
  split_ifs with h1 h2 <;> simp <;> omega

theorem C2_length_reject_iff_witness :
    predictStep (String.toList "ATGAAAAAATAG") 20 0 0 0 = StepResult.lenReject 1 :=
  (C2_length_reject_iff (String.toList "ATGAAAAAATAG") 20 0 0 0 0 9
    (by decide) (by decide)).mpr (by decide)

/-- C3: every gene in the final output list, forward-strand genes and remapped
reverse-strand genes alike, spans at least min_gene_len bases
(stop − start + 1 ≥ min_gene_len). -/
theorem C3_min_gene_length (seq : List Char) (minLen maxSD minGap : Nat)
    (gs : List (Int × Int)) (h : mainGenes seq minLen maxSD minGap = some gs) :
    ∀ g ∈ gs, (minLen : Int) ≤ g.2 - g.1 + 1 := by
  obtain ⟨fwd, rc, rev, hf, hrc, hrev, rfl⟩ := mainGenes_eq h
  intro g hg
  rcases List.mem_append.mp hg with hg | hg
  · obtain ⟨s, p, rfl, -, -, -, -, hlen, -⟩ := (predict_genes_chain hf).gene_spec g hg
    show (minLen : Int) ≤ ((p : Int) + 3) - ((s : Int) + 1) + 1
    omega
  · obtain ⟨g0, hg0, rfl⟩ := List.mem_map.mp hg
    obtain ⟨s, p, rfl, -, -, -, -, hlen, -⟩ := (predict_genes_chain hrev).gene_spec g0 hg0
    show (minLen : Int) ≤
      ((rc.length : Int) - ((s : Int) + 1) + 1) - ((rc.length : Int) - ((p : Int) + 3) + 1) + 1
    omega

theorem C3_min_gene_length_witness :
    ((3 : Nat) : Int) ≤ (25 : Int) - (17 : Int) + 1 :=
  C3_min_gene_length (String.toList "AGGAGGAAAAAAAAAAATGAAATAG") 3 16 18
    [((17 : Int), (25 : Int))] (by decide) ((17 : Int), (25 : Int)) (by decide)

/-- C4: every gene reported by predict_genes has a span that is a multiple of 3,
carries a start codon on its first three bases and a stop codon on its last
three, and both codons share the reading frame: the gene is
(s + 1, p + 3) in 1-indexed terms for a 0-indexed start-codon position s and
stop-codon position p with p ≡ s mod 3. -/
theorem C4_codon_structure (seq : List Char) (minLen maxSD minGap : Nat)
    (gs : List (Int × Int)) (h : predict_genes seq minLen maxSD minGap = some gs) :
    ∀ g ∈ gs, (g.2 - g.1 + 1) % 3 = 0 ∧
      ∃ s p : Nat, g = ((s : Int) + 1, (p : Int) + 3) ∧
        startCodonAt seq s = true ∧ stopCodonAt seq p = true ∧ p % 3 = s % 3 := by
  intro g hg
  obtain ⟨s, p, rfl, -, hstart, hstop, hframe, -, -⟩ := (predict_genes_chain h).gene_spec g hg
  refine ⟨?_, s, p, rfl, hstart, hstop, hframe⟩
  show (((p : Int) + 3) - ((s : Int) + 1) + 1) % 3 = 0
  omega

theorem C4_codon_structure_witness :
    ((((17 : Int), (25 : Int)) : Int × Int).2 - (((17 : Int), (25 : Int)) : Int × Int).1 + 1) % 3
        = 0 ∧
      ∃ s p : Nat, (((17 : Int), (25 : Int)) : Int × Int) = ((s : Int) + 1, (p : Int) + 3) ∧
        startCodonAt (String.toList "AGGAGGAAAAAAAAAAATGAAATAG") s = true ∧
        stopCodonAt (String.toList "AGGAGGAAAAAAAAAAATGAAATAG") p = true ∧ p % 3 = s % 3 :=
  C4_codon_structure (String.toList "AGGAGGAAAAAAAAAAATGAAATAG") 3 16 18
    [((17 : Int), (25 : Int))] (by decide) ((17 : Int), (25 : Int)) (by decide)

/-- C5: the genes of a single predict_genes scan are ordered by strictly
increasing start, pairwise non-overlapping (each gene ends before the next one
starts), and consecutive genes satisfy next start ≥ previous stop + min_gap + 1,
the cursor having jumped to stop_position + 3 + min_gap after each acceptance. -/
theorem C5_nonoverlap (seq : List Char) (minLen maxSD minGap : Nat)
    (gs : List (Int × Int)) (h : predict_genes seq minLen maxSD minGap = some gs) :
    List.Chain' (fun a b : Int × Int => a.2 + (minGap : Int) + 1 ≤ b.1) gs ∧
    List.Pairwise (fun a b : Int × Int => a.1 < b.1 ∧ a.2 < b.1) gs :=
  ⟨(predict_genes_chain h).chain_gap, (predict_genes_chain h).pairwise_lt⟩

theorem C5_nonoverlap_witness :
    List.Chain' (fun a b : Int × Int => a.2 + ((18 : Nat) : Int) + 1 ≤ b.1)
        [((17 : Int), (25 : Int))] ∧
      List.Pairwise (fun a b : Int × Int => a.1 < b.1 ∧ a.2 < b.1) [((17 : Int), (25 : Int))] :=
  C5_nonoverlap (String.toList "AGGAGGAAAAAAAAAAATGAAATAG") 3 16 18
    [((17 : Int), (25 : Int))] (by decide)

/-- C7: has_shine_dalgarno returns false whenever start − max_shine_dalgarno_distance
is negative, and consequently no reported gene has a 0-indexed start position
(1-indexed start minus 1) below max_shine_dalgarno_distance. -/
theorem C7_origin_prefix_guard (seq : List Char) (start maxSD minLen minGap : Nat)
    (gs : List (Int × Int)) :
    ((start : Int) - (maxSD : Int) < 0 → hasShineDalgarno seq start maxSD = false) ∧
    (predict_genes seq minLen maxSD minGap = some gs → ∀ g ∈ gs, (maxSD : Int) ≤ g.1 - 1) := by
  constructor
  · intro hneg
    unfold hasShineDalgarno
    rw [if_pos hneg]
  · intro h g hg
    obtain ⟨s, p, rfl, -, -, -, -, -, hshine⟩ := (predict_genes_chain h).gene_spec g hg
    have := hasShineDalgarno_true_ge hshine
    show (maxSD : Int) ≤ ((s : Int) + 1) - 1
    omega

/-- C8: the remap applied to each reverse-complement gene before output is
exactly (s, e) ↦ (L − e + 1, L − s + 1), and applying it twice with the same L
is the identity. -/
theorem C8_remap_involution (L : Nat) (g : Int × Int) :
    remapGene L g = ((L : Int) - g.2 + 1, (L : Int) - g.1 + 1) ∧
    remapGene L (remapGene L g) = g := by
  refine ⟨rfl, ?_⟩
  cases g with
  | mk a b =>
    show ((L : Int) - ((L : Int) - a + 1) + 1, (L : Int) - ((L : Int) - b + 1) + 1) = (a, b)
    rw [Prod.mk.injEq]
    omega

/-- C10: with max_shine_dalgarno_distance at most 9 the motif window
[start − max_distance, start − 6) is narrower than the 4-base minimum length of
every shine_regex alternative, so has_shine_dalgarno is false on every sequence
and start, and predict_genes can accept no gene under such a configuration. -/
theorem C10_small_window_no_genes (seq : List Char) (start maxSD : Nat) (h9 : maxSD ≤ 9) :
    hasShineDalgarno seq start maxSD = false ∧
    ∀ minLen minGap gs, predict_genes seq minLen maxSD minGap = some gs → gs = [] := by
  refine ⟨shine_window_too_small seq start maxSD h9, fun minLen minGap gs h => ?_⟩
  rcases gs with _ | ⟨g, tail⟩
  · rfl
  · obtain ⟨s, p, -, -, -, -, -, -, hshine⟩ :=
      (predict_genes_chain h).gene_spec g (by simp)
    rw [shine_window_too_small seq s maxSD h9] at hshine
    exact absurd hshine (by simp)

theorem C10_small_window_witness :
    hasShineDalgarno (String.toList "AGGAGGAAAAAAAAAAATGAAATAG") 16 9 = false ∧
      ([] : List (Int × Int)) = [] :=
  ⟨(C10_small_window_no_genes (String.toList "AGGAGGAAAAAAAAAAATGAAATAG") 16 9 (by decide)).1,
   (C10_small_window_no_genes ([] : List Char) 0 9 (by decide)).2 0 1 [] (by decide)⟩

theorem complementBase_none_iff (c : Char) : complementBase c = none ↔ isACGT c = false := by
  unfold complementBase isACGT
  split_ifs with h1 h2 h3 h4 <;> simp_all

theorem complementBase_valid (c : Char) (h : isACGT c = true) :
    complementBase c = some (watsonCrick c) := by
  unfold complementBase watsonCrick
  unfold isACGT at h
  split_ifs with h1 h2 h3 h4 <;> simp_all

theorem mapM_complementBase (l : List Char) :
    (l.mapM complementBase = none ↔ ∃ c ∈ l, isACGT c = false) ∧
    ((∀ c ∈ l, isACGT c = true) → l.mapM complementBase = some (l.map watsonCrick)) := by
  induction l with
  | nil =>
    rw [List.mapM_nil]
    exact ⟨by simp, fun _ => by simp⟩
  | cons a l ih =>
    rw [List.mapM_cons]
    constructor
    · cases hc : complementBase a with
      | none =>
        refine ⟨fun _ => ⟨a, List.mem_cons_self a l, (complementBase_none_iff a).mp hc⟩,
          fun _ => rfl⟩
      | some b =>
        cases hm : l.mapM complementBase with
        | none =>
          obtain ⟨c, hcl, hcf⟩ := ih.1.mp hm
          exact ⟨fun _ => ⟨c, List.mem_cons_of_mem a hcl, hcf⟩, fun _ => rfl⟩
        | some bs =>
          constructor
          · intro hcontra
            exact absurd hcontra (by simp)
          · rintro ⟨c, hcl, hcf⟩
            rcases List.mem_cons.mp hcl with rfl | hcl
            · rw [(complementBase_none_iff c).mpr hcf] at hc
              exact absurd hc (by simp)
            · rw [ih.1.mpr ⟨c, hcl, hcf⟩] at hm
              exact absurd hm (by simp)
    · intro hv
      rw [complementBase_valid a (hv a (List.mem_cons_self a l)),
        ih.2 (fun c hc => hv c (List.mem_cons_of_mem a hc))]
      rfl

/-- C9: reverse_complement fails (the KeyError of the complement dictionary,
modelled none) exactly when some character of the sequence lies outside ACGT;
on an all-valid sequence it returns the reversed sequence with every base
replaced by its Watson-Crick complement. -/
theorem C9_reverse_complement_ok (seq : List Char) :
    (reverse_complement seq = none ↔ ∃ c ∈ seq, isACGT c = false) ∧
    ((∀ c ∈ seq, isACGT c = true) →
      reverse_complement seq = some (seq.reverse.map watsonCrick)) := by
  unfold reverse_complement
  obtain ⟨h1, h2⟩ := mapM_complementBase seq.reverse
  constructor
  · rw [h1]
    constructor
    · rintro ⟨c, hc, hf⟩
      exact ⟨c, List.mem_reverse.mp hc, hf⟩
    · rintro ⟨c, hc, hf⟩
      exact ⟨c, List.mem_reverse.mpr hc, hf⟩
  · intro hv
    exact h2 (fun c hc => hv c (List.mem_reverse.mp hc))

end GPred
